import Mathlib

/-!
Verification of the kbgen note-graph core (src/kbgen/generator.py).

A shallow embedding of the note-graph and cross-reference engine of the
static knowledge-base generator.  Python strings are embedded as `List Char`
(one element per Unicode code point, exactly Python's indexing unit).
Filesystem paths are embedded as lists of path components (each a `List Char`);
the corpus root is an absolute component list.  Fallible operations (Python
exceptions) return `Except PyErr`.

Unicode caveat, stated once: `pyLower` implements the ASCII case mapping.
Python's `str.lower` additionally maps non-ASCII cased letters; every string
this development lowers is either ASCII or drawn from the generator's
allow-list (ASCII, kana, CJK — all caseless), where the two agree.
-/

/-- Python `str` embedded as its sequence of code points. -/
abbrev Str := List Char

namespace Kbgen

/-- Membership of a code point in the CPython `str` whitespace table
(the set used by `str.strip`, `str.split`, `str.splitlines`' cousins). -/
def isPyWs (c : Char) : Bool :=
  let v := c.toNat
  (9 ≤ v && v ≤ 13) || (28 ≤ v && v ≤ 31) || v = 32 || v = 133 || v = 160 ||
  v = 5760 || (8192 ≤ v && v ≤ 8202) || v = 8232 || v = 8233 ||
  v = 8239 || v = 8287 || v = 12288

/-- Membership in the set matched by the regex class `\s` on `str` patterns:
the Python whitespace table minus `\x1c`–`\x1f` (which lack the Unicode
White_Space property). -/
def isReWs (c : Char) : Bool :=
  isPyWs c && !(28 ≤ c.toNat && c.toNat ≤ 31)

/-- Line-break code points recognised by `str.splitlines`
(besides the two-character sequence `\r\n`). -/
def isLineBreak (c : Char) : Bool :=
  let v := c.toNat
  v = 10 || v = 13 || v = 11 || v = 12 || v = 28 || v = 29 || v = 30 ||
  v = 133 || v = 8232 || v = 8233

/-- ASCII case mapping of a code point (see the Unicode caveat above). -/
def pyLowerChar (c : Char) : Char :=
  if 'A' ≤ c && c ≤ 'Z' then Char.ofNat (c.toNat + 32) else c

/-- Python `str.lower` (ASCII case mapping; see the Unicode caveat above). -/
def pyLower (s : Str) : Str := s.map pyLowerChar

/-- Python `str.lstrip()` (no argument: strip leading Python whitespace). -/
def pyLstrip (s : Str) : Str := s.dropWhile isPyWs

/-- Python `str.rstrip()` (no argument: strip trailing Python whitespace). -/
def pyRstrip (s : Str) : Str := (s.reverse.dropWhile isPyWs).reverse

/-- Python `str.strip()` (no argument). -/
def pyStrip (s : Str) : Str := pyRstrip (pyLstrip s)

/-- Python `str.lstrip(chars)`: strip leading characters drawn from `chars`. -/
def pyLstripSet (chars : Str) (s : Str) : Str := s.dropWhile (chars.contains ·)

/-- Tokenizer for `str.split()`: `acc` holds the reversed current token. -/
def pySplitWsAux : Str → Str → List Str
  | [], acc => if acc = [] then [] else [acc.reverse]
  | c :: rest, acc =>
    if isPyWs c then
      if acc = [] then pySplitWsAux rest []
      else acc.reverse :: pySplitWsAux rest []
    else pySplitWsAux rest (c :: acc)

/-- Python `str.split()` with no argument: maximal runs of non-whitespace. -/
def pySplitWs (s : Str) : List Str := pySplitWsAux s []

/-- Python `sep.join pieces` for a one-character-free separator string. -/
def joinSep (sep : Str) : List Str → Str
  | [] => []
  | [p] => p
  | p :: ps => p ++ sep ++ joinSep sep ps

/-- Python `str.split(sep)` on a single-character separator (every occurrence splits;
empty pieces are kept, as in Python). -/
def pySplitChar (sep : Char) : Str → List Str
  | [] => [[]]
  | c :: rest =>
    if c = sep then [] :: pySplitChar sep rest
    else
      match pySplitChar sep rest with
      | [] => [[c]]
      | p :: ps => (c :: p) :: ps

/-- Line scanner for `str.splitlines()`: `acc` holds the reversed current
line; `skipLf` is set just after a `\r` so that an immediately following
`\n` is consumed silently (`\r\n` is one terminator).  A trailing
unterminated line is kept, a trailing terminator adds no empty line. -/
def pySplitlinesAux : Bool → Str → Str → List Str
  | _, [], acc => if acc = [] then [] else [acc.reverse]
  | skipLf, c :: rest, acc =>
    if skipLf ∧ c = '\n' then pySplitlinesAux false rest acc
    else if c = '\r' then acc.reverse :: pySplitlinesAux true rest []
    else if isLineBreak c then acc.reverse :: pySplitlinesAux false rest []
    else pySplitlinesAux false rest (c :: acc)

/-- Python `str.splitlines()`. -/
def pySplitlines (s : Str) : List Str := pySplitlinesAux false s []

/-- Python `str.startswith(p)`. -/
def pyStartsWith (p s : Str) : Bool := p.isPrefixOf s

/-- A value of a metadata entry: every key maps to its trimmed string value,
except `tags`, which maps to the parsed tag list. -/
inductive MetaVal where
  | str (v : Str)
  | tagList (vs : List Str)
deriving DecidableEq, Repr

/-- Python-`dict` insertion on an association list: overwriting an existing
key keeps its position, a new key is appended. -/
def dictInsert {β : Type} (k : Str) (v : β) (d : List (Str × β)) :
    List (Str × β) :=
  if d.any (fun e => e.1 = k) then
    d.map (fun e => if e.1 = k then (k, v) else e)
  else d ++ [(k, v)]

/-- Python `split(":", 1)`: split at the first colon only.  Returns `none` when the
line has no colon (the `":" not in line` guard). -/
def splitColonOnce (l : Str) : Option (Str × Str) :=
  match l.dropWhile (· ≠ ':') with
  | [] => none
  | _ :: v => some (l.takeWhile (· ≠ ':'), v)

/-- Embeds `_parse_metadata` (generator.py): each non-blank, non-`#` line with a
colon contributes one entry; keys are trimmed and lower-cased; the `tags`
value is split on commas, each piece trimmed, empty pieces dropped. -/
def parseMetadata (lines : List Str) : List (Str × MetaVal) :=
  lines.foldl
    (fun metadata raw =>
      let line := pyStrip raw
      if line = [] then metadata
      else if pyStartsWith "#".data line then metadata
      else
        match splitColonOnce line with
        | none => metadata
        | some (k, v) =>
          let key := pyLower (pyStrip k)
          let value := pyStrip v
          if key = "tags".data then
            let tags := (pySplitChar ',' value).map pyStrip |>.filter (· ≠ [])
            dictInsert key (MetaVal.tagList tags) metadata
          else dictInsert key (MetaVal.str value) metadata)
    []

/-- One iteration of the `_split_front_matter` line loop: the state is
`(inside_meta, meta_lines, body_lines)`. -/
def fmStep (st : Bool × List Str × List Str) (line : Str) :
    Bool × List Str × List Str :=
  if st.1 ∧ pyStrip line = "---".data then (false, st.2.1, st.2.2)
  else if st.1 then (true, st.2.1 ++ [line], st.2.2)
  else (false, st.2.1, st.2.2 ++ [line])

/-- Embeds `_split_front_matter` (generator.py): if the first line does not strip to
`---`, metadata is empty and the body is the whole text; otherwise the lines
up to the next line stripping to `---` are metadata and the rest (leading
newlines stripped) is the body. -/
def splitFrontMatter (text : Str) : List (Str × MetaVal) × Str :=
  match pySplitlines text with
  | [] => ([], text)
  | l₀ :: rest =>
    if pyStrip l₀ ≠ "---".data then ([], text)
    else
      let step := rest.foldl fmStep (true, [], [])
      (parseMetadata step.2.1, pyLstripSet "\n".data (joinSep "\n".data step.2.2))

/-- The guard of `_split_front_matter`: `lines and lines[0].strip() == "---"`. -/
def firstLineDelim (text : Str) : Bool :=
  match pySplitlines text with
  | [] => false
  | l₀ :: _ => pyStrip l₀ = "---".data

/-- Index of the first occurrence of `pat` as a contiguous substring
(`re`-style leftmost match position). -/
def findFrom (pat : Str) : Str → Option Nat
  | [] => if pat.isPrefixOf ([] : Str) then some 0 else none
  | c :: rest =>
    if pat.isPrefixOf (c :: rest) then some 0
    else (findFrom pat rest).map (· + 1)

theorem findFrom_bound {pat l : Str} {i : Nat} (h : findFrom pat l = some i) :
    i + pat.length ≤ l.length := by
  induction l generalizing i with
  | nil =>
    rw [findFrom] at h
    split at h
    · cases Option.some.inj h
      simp_all [List.isPrefixOf_iff_prefix]
    · cases h
  | cons c rest ih =>
    rw [findFrom] at h
    split at h
    · cases Option.some.inj h
      rename_i hp
      rw [List.isPrefixOf_iff_prefix] at hp
      have := hp.length_le
      simp only [List.length_cons] at this ⊢
      omega
    · match hr : findFrom pat rest with
      | none => rw [hr] at h; cases h
      | some j =>
        rw [hr] at h
        cases Option.some.inj h
        have := ih hr
        simp; omega

/-- One deletion round per unit of fuel for `removeFenced`; each round
consumes at least six characters, so `l.length + 1` units never run out
(`removeFencedF_congr`).  Fuel keeps the recursion structural, so that the
function evaluates inside the kernel. -/
def removeFencedF : Nat → Str → Str
  | 0, l => l
  | fuel + 1, l =>
    match findFrom "```".data l with
    | none => l
    | some i =>
      match findFrom "```".data (l.drop (i + 3)) with
      | none => l
      | some j => l.take i ++ removeFencedF fuel ((l.drop (i + 3)).drop (j + 3))

/-- Python `re.sub(r"```.*?```", "", text, flags=re.DOTALL)`: repeatedly delete the
leftmost-shortest paired triple-backtick region.  (When the first `` ``` ``
has no closing `` ``` `` anywhere after it, no further match exists, so the
remainder is kept verbatim — exactly the regex behaviour.) -/
def removeFenced (l : Str) : Str := removeFencedF (l.length + 1) l

/-- The fuel in `removeFenced` is irrelevant beyond the input length: the
fuel-exhaustion branch is unreachable. -/
theorem removeFencedF_congr :
    ∀ fuel₁ fuel₂ l, l.length < fuel₁ → l.length < fuel₂ →
      removeFencedF fuel₁ l = removeFencedF fuel₂ l := by
  intro fuel₁
  induction fuel₁ with
  | zero => intro fuel₂ l h₁ _; omega
  | succ f ih =>
    intro fuel₂ l h₁ h₂
    match fuel₂ with
    | 0 => omega
    | f₂ + 1 =>
      rw [removeFencedF, removeFencedF]
      split
      · rfl
      · rename_i i hf
        split
        · rfl
        · rename_i j hf₂
          have b1 := findFrom_bound hf
          have b2 := findFrom_bound hf₂
          simp only [List.length_drop] at b2
          have hb1 : i + 3 ≤ l.length := by simpa using b1
          have hlen : ((l.drop (i + 3)).drop (j + 3)).length < l.length := by
            simp only [List.length_drop]
            omega
          exact congrArg (fun x => l.take i ++ x)
            (ih f₂ _ (by omega) (by omega))

/-- Matches `[^)]*\)` after `](`: the target runs to the first `)`; `none` when no
`)` remains.  Returns the target and the remainder after the `)`. -/
def splitAtParen (l : Str) : Option (Str × Str) :=
  match l.dropWhile (· ≠ ')') with
  | [] => none
  | _ :: rem => some (l.takeWhile (· ≠ ')'), rem)

theorem splitAtParen_length {l t rem : Str} (h : splitAtParen l = some (t, rem)) :
    rem.length < l.length := by
  rw [splitAtParen] at h
  match hd : l.dropWhile (· ≠ ')') with
  | [] => rw [hd] at h; cases h
  | c :: rem' =>
    rw [hd] at h
    cases Option.some.inj h
    have hs : (l.dropWhile (· ≠ ')')).length ≤ l.length :=
      (List.dropWhile_sublist _).length_le
    rw [hd] at hs
    simp at hs
    omega

/-- The lazy tail of `\[(.*?)\]\([^)]*\)` applied after an opening `[`:
the shortest newline-free content followed by `](`, a `)`-free target and a
closing `)`.  Returns the captured content and the remainder after the
match; `none` when no match starts at this `[`. -/
def tryLinkEx : Str → Option (Str × Str)
  | [] => none
  | [_] => none
  | c₁ :: c₂ :: rest =>
    if c₁ = ']' ∧ c₂ = '(' then
      match splitAtParen rest with
      | some (_, rem) => some (([] : Str), rem)
      | none => (tryLinkEx (c₂ :: rest)).map (fun p => (c₁ :: p.1, p.2))
    else if c₁ = '\n' then none
    else (tryLinkEx (c₂ :: rest)).map (fun p => (c₁ :: p.1, p.2))

theorem tryLinkEx_length {l content rem : Str}
    (h : tryLinkEx l = some (content, rem)) : rem.length < l.length := by
  induction l generalizing content rem with
  | nil => simp [tryLinkEx] at h
  | cons c rest ih =>
    match rest with
    | [] => simp [tryLinkEx] at h
    | c₂ :: rest' =>
      rw [tryLinkEx] at h
      split at h
      · match hp : splitAtParen rest' with
        | some (t, rem') =>
          rw [hp] at h
          simp only [Option.some.injEq, Prod.mk.injEq] at h
          obtain ⟨-, h2⟩ := h
          subst h2
          have := splitAtParen_length hp
          simp only [List.length_cons]
          omega
        | none =>
          rw [hp] at h
          simp only [Option.map_eq_some'] at h
          obtain ⟨⟨c', r'⟩, hrec, heq⟩ := h
          cases heq
          have := ih hrec
          simp only [List.length_cons] at this ⊢
          omega
      · split at h
        · cases h
        · simp only [Option.map_eq_some'] at h
          obtain ⟨⟨c', r'⟩, hrec, heq⟩ := h
          cases heq
          have := ih hrec
          simp only [List.length_cons] at this ⊢
          omega

/-- Computes `replaceLinksEx` with structural fuel; every step consumes at least one
character, so `l.length + 1` units never run out (`replaceLinksExF_congr`). -/
def replaceLinksExF : Nat → Str → Str
  | 0, l => l
  | _ + 1, [] => []
  | fuel + 1, c :: rest =>
    if c = '[' then
      match tryLinkEx rest with
      | some (content, rem) => content ++ replaceLinksExF fuel rem
      | none => c :: replaceLinksExF fuel rest
    else c :: replaceLinksExF fuel rest

/-- Python `re.sub(r"\[(.*?)\]\([^)]*\)", r"\1", text)`: replace each markdown
link with its label. -/
def replaceLinksEx (l : Str) : Str := replaceLinksExF (l.length + 1) l

theorem replaceLinksExF_congr :
    ∀ fuel₁ fuel₂ l, l.length < fuel₁ → l.length < fuel₂ →
      replaceLinksExF fuel₁ l = replaceLinksExF fuel₂ l := by
  intro fuel₁
  induction fuel₁ with
  | zero => intro fuel₂ l h₁ _; omega
  | succ f ih =>
    intro fuel₂ l h₁ h₂
    match fuel₂ with
    | 0 => omega
    | f₂ + 1 =>
      match l with
      | [] => rfl
      | c :: rest =>
        rw [replaceLinksExF, replaceLinksExF]
        simp only [List.length_cons] at h₁ h₂
        split
        · rcases hm : tryLinkEx rest with - | ⟨content, rem⟩
          · exact congrArg (fun x => c :: x) (ih f₂ rest (by omega) (by omega))
          · have := tryLinkEx_length hm
            exact congrArg (fun x => content ++ x) (ih f₂ rem (by omega) (by omega))
        · exact congrArg (fun x => c :: x) (ih f₂ rest (by omega) (by omega))

/-- Python `re.sub(r"[#*>`_~]", "", s)`: drop markdown markup characters. -/
def stripMarkup (s : Str) : Str :=
  s.filter (fun c => !(("#*>`_~".data).contains c))

/-- Python `" ".join(s.split())`: collapse all whitespace runs to single spaces and
trim. -/
def collapseWs (s : Str) : Str := joinSep " ".data (pySplitWs s)

/-- Python slicing `s[:n]` (a negative `n` counts from the end, clamped). -/
def pySliceTo (n : Int) (l : Str) : Str :=
  if 0 ≤ n then l.take n.toNat else l.take (l.length - (-n).toNat)

/-- Embeds `_create_excerpt` (generator.py). -/
def createExcerpt (maxLength : Int) (text : Str) : Str :=
  let withoutCode := removeFenced text
  let withoutLinks := replaceLinksEx withoutCode
  let withoutMarkup := stripMarkup withoutLinks
  let collapsed := collapseWs withoutMarkup
  if (collapsed.length : Int) ≤ maxLength then collapsed
  else pyRstrip (pySliceTo (maxLength - 1) collapsed) ++ "…".data

/-- Embeds `_create_excerpt` at its default `max_length=160`. -/
def createExcerptDefault (text : Str) : Str := createExcerpt 160 text

/-!
Section: Stable sorting by key

CPython's `list.sort(key=f)` is a stable sort by `f`-keys compared with `<`
(lexicographic by code point on strings, elementwise-lexicographic on
tuples).  A stable sort is uniquely determined by the key order, so it is
embedded as insertion sort, with sortedness, permutation and stability
(filter-preservation per key class) proved below. -/

/-- Python string `<`: lexicographic by code point. -/
def ltChars : Str → Str → Bool
  | _, [] => false
  | [], _ :: _ => true
  | a :: as, b :: bs =>
    if a < b then true
    else if a = b then ltChars as bs
    else false

/-- Python string `<=` (total order: `a <= b ↔ ¬ b < a`). -/
def leChars (a b : Str) : Bool := !(ltChars b a)

theorem ltChars_irrefl : ∀ a : Str, ltChars a a = false := by
  intro a
  induction a with
  | nil => rfl
  | cons c cs ih => simp [ltChars, lt_irrefl, ih]

theorem ltChars_trans :
    ∀ {a b c : Str}, ltChars a b = true → ltChars b c = true →
      ltChars a c = true := by
  intro a
  induction a with
  | nil =>
    intro b c h₁ h₂
    match b, c with
    | [], _ => cases h₁
    | _ :: _, [] => cases h₂
    | _ :: _, _ :: _ => rfl
  | cons a₁ as ih =>
    intro b c h₁ h₂
    match b, c with
    | [], _ => cases h₁
    | _ :: _, [] => cases h₂
    | b₁ :: bs, c₁ :: cs =>
      rw [ltChars] at h₁ h₂ ⊢
      split at h₁
      · rename_i hab
        split at h₂
        · rename_i hbc
          rw [if_pos (lt_trans hab hbc)]
        · split at h₂
          · rename_i hbc
            rw [if_pos (hbc ▸ hab)]
          · cases h₂
      · split at h₁
        · rename_i hab
          split at h₂
          · rename_i hbc
            rw [if_pos (hab ▸ hbc)]
          · split at h₂
            · rename_i hbc
              rw [hab, hbc, if_neg (lt_irrefl c₁), if_pos rfl]
              exact ih h₁ h₂
            · cases h₂
        · cases h₁

theorem ltChars_connex :
    ∀ {a b : Str}, ltChars a b = false → ltChars b a = false → a = b := by
  intro a
  induction a with
  | nil =>
    intro b h₁ _
    match b with
    | [] => rfl
    | _ :: _ => cases h₁
  | cons a₁ as ih =>
    intro b h₁ h₂
    match b with
    | [] => cases h₂
    | b₁ :: bs =>
      rw [ltChars] at h₁ h₂
      split at h₁
      · cases h₁
      · split at h₂
        · cases h₂
        · rename_i hab hba
          have he : a₁ = b₁ := le_antisymm (le_of_not_lt hba) (le_of_not_lt hab)
          rw [if_pos he] at h₁
          rw [he, ih h₁ (by rwa [if_pos he.symm] at h₂)]

theorem leChars_total (a b : Str) : leChars a b = true ∨ leChars b a = true := by
  unfold leChars
  by_cases h₁ : ltChars b a = true
  · right
    by_cases h₂ : ltChars a b = true
    · have := ltChars_trans h₁ h₂
      rw [ltChars_irrefl] at this
      cases this
    · simp [Bool.not_eq_true] at h₂
      simp [h₂]
  · left
    simp [Bool.not_eq_true] at h₁
    simp [h₁]

theorem leChars_trans {a b c : Str} (h₁ : leChars a b = true)
    (h₂ : leChars b c = true) : leChars a c = true := by
  unfold leChars at *
  simp only [Bool.not_eq_true'] at h₁ h₂ ⊢
  by_contra hceq
  have hca : ltChars c a = true := by
    cases hv : ltChars c a
    · exact absurd hv hceq
    · rfl
  by_cases hbc : ltChars b c = true
  · have hba : ltChars b a = true := ltChars_trans hbc hca
    rw [h₁] at hba
    cases hba
  · simp only [Bool.not_eq_true] at hbc
    have hb : b = c := ltChars_connex hbc h₂
    subst hb
    rw [hca] at h₁
    cases h₁

/-- Insertion sort driven by a boolean "stays-before" relation: the stable
sort of `list.sort`. -/
def sortByBool {α : Type} (le : α → α → Bool) (l : List α) : List α :=
  l.insertionSort (fun a b => le a b = true)

/-- Python `list.sort(key=...)` with string keys. -/
def sortByKey {α : Type} (key : α → Str) (l : List α) : List α :=
  sortByBool (fun a b => leChars (key a) (key b)) l

theorem sortByKey_perm {α : Type} (key : α → Str)
    (l : List α) : List.Perm (sortByKey key l) l :=
  List.perm_insertionSort _ _

theorem sortByKey_sorted {α : Type} (key : α → Str)
    (l : List α) :
    (sortByKey key l).Pairwise (fun a b => leChars (key a) (key b) = true) := by
  haveI : IsTotal α (fun a b => leChars (key a) (key b) = true) :=
    ⟨fun a b => leChars_total (key a) (key b)⟩
  haveI : IsTrans α (fun a b => leChars (key a) (key b) = true) :=
    ⟨fun _ _ _ => leChars_trans⟩
  exact List.sorted_insertionSort _ l

theorem key_eq_of_not_le {α : Type} {key : α → Str} {a b : α} {k : Str}
    (hr : ¬ leChars (key a) (key b) = true) (ha : key a = k) :
    ¬ key b = k := by
  intro hbk
  apply hr
  rw [ha, hbk]
  unfold leChars
  rw [ltChars_irrefl]
  rfl

theorem filter_orderedInsert_key_eq {α : Type}
    (key : α → Str) (k : Str)
    (a : α) (ha : key a = k) (l : List α) :
    (l.orderedInsert (fun a b => leChars (key a) (key b) = true) a).filter
        (fun b => key b = k) =
      a :: l.filter (fun b => key b = k) := by
  induction l with
  | nil => simp [List.orderedInsert, List.filter, ha]
  | cons b l ih =>
    rw [List.orderedInsert]
    split
    · simp [List.filter, ha]
    · rename_i hr
      have hb : ¬ key b = k := key_eq_of_not_le hr ha
      simp only [List.filter_cons,
        if_neg (show ¬(decide (key b = k) = true) by simpa using hb)]
      rw [ih]

theorem filter_orderedInsert_key_ne {α : Type}
    (key : α → Str) (k : Str)
    (a : α) (ha : ¬ key a = k) (l : List α) :
    (l.orderedInsert (fun a b => leChars (key a) (key b) = true) a).filter
        (fun b => key b = k) =
      l.filter (fun b => key b = k) := by
  induction l with
  | nil => simp [List.orderedInsert, List.filter, ha]
  | cons b l ih =>
    rw [List.orderedInsert]
    split
    · simp only [List.filter_cons]
      rw [if_neg (by simpa using ha)]
    · simp only [List.filter_cons]
      rw [ih]

/-- Stability of the embedded sort: each key class keeps its original
(insertion) order. -/
theorem sortByKey_filter {α : Type} (key : α → Str) (k : Str)
    (l : List α) :
    (sortByKey key l).filter (fun b => key b = k) =
      l.filter (fun b => key b = k) := by
  induction l with
  | nil => rfl
  | cons a l ih =>
    show ((sortByKey key l).orderedInsert _ a).filter _ = _
    by_cases ha : key a = k
    · rw [filter_orderedInsert_key_eq key k a ha, ih, List.filter_cons,
        if_pos (by simpa using ha)]
    · rw [filter_orderedInsert_key_ne key k a ha, ih, List.filter_cons,
        if_neg (by simpa using ha)]

/-- Python tuple `<` on string pairs (the `(title.lower(), slug)` sort key). -/
def ltPairChars (a b : Str × Str) : Bool :=
  if ltChars a.1 b.1 then true
  else if a.1 = b.1 then ltChars a.2 b.2
  else false

/-- Python tuple `<=` on string pairs. -/
def lePairChars (a b : Str × Str) : Bool := !(ltPairChars b a)

/-- Python `pathlib` path `<`: lexicographic on the tuple of components. -/
def ltPathComps : List Str → List Str → Bool
  | _, [] => false
  | [], _ :: _ => true
  | a :: as, b :: bs =>
    if ltChars a b then true
    else if a = b then ltPathComps as bs
    else false

/-- Python `pathlib` path `<=`. -/
def lePathComps (a b : List Str) : Bool := !(ltPathComps b a)

/-!
Section: Paths

`pathlib` paths are embedded as a list of components plus an absolute flag.
Parsing drops empty and `.` components (as `PurePosixPath` does).  `resolve()`
is modelled lexically (make absolute, eliminate `..`): the corpora contain no
symlinks, for which non-strict `resolve` is exactly this normalisation. -/

/-- A Python exception relevant to this core. -/
inductive PyErr where
  | valueError
deriving DecidableEq, Repr

/-- A parsed `pathlib` path: absolute flag plus components. -/
structure PPath where
  absolute : Bool
  comps : List Str
deriving DecidableEq, Repr

/-- Python `Path(s)` for a POSIX path string. -/
def parsePath (s : Str) : PPath :=
  { absolute := pyStartsWith "/".data s
    comps := (pySplitChar '/' s).filter (fun c => c ≠ [] ∧ c ≠ ".".data) }

/-- Python `PurePath.name`: the final component (`''` when there is none). -/
def pathName (comps : List Str) : Str := comps.getLast?.getD []

/-- Index of the last `.` in a name, if any. -/
def rfindDot (name : Str) : Option Nat :=
  (name.reverse.findIdx? (· = '.')).map (fun j => name.length - 1 - j)

/-- Python `PurePath.suffix` of a name: `name[i:]` for the last dot index `i` when
`0 < i < len(name) - 1`, else `''`. -/
def pySuffix (name : Str) : Str :=
  match rfindDot name with
  | some i => if 0 < i ∧ i < name.length - 1 then name.drop i else []
  | none => []

/-- Python `PurePath.with_suffix(suffix)` applied to a component list: replaces the
suffix of the final component; raises `ValueError` (here: `none`) when the
path has an empty name. -/
def withSuffixComps (comps : List Str) (suffix : Str) : Option (List Str) :=
  let name := pathName comps
  if name = [] then none
  else
    let old := pySuffix name
    let newName :=
      if old ≠ [] then name.take (name.length - old.length) ++ suffix
      else name ++ suffix
    some (comps.dropLast ++ [newName])

/-- Python `current_dir / candidate`: an absolute right operand replaces the left. -/
def joinPath (cur : List Str) (p : PPath) : List Str :=
  if p.absolute then p.comps else cur ++ p.comps

/-- Lexical `resolve()` on an absolute component list: `..` pops (a no-op at
the root), other components push. -/
def resolveComps (comps : List Str) : List Str :=
  comps.foldl (fun acc c => if c = "..".data then acc.dropLast else acc ++ [c]) []

/-- Python `resolved.relative_to(root)`: strips the root prefix, `none` (the caught
`ValueError`) when `root` is not a prefix. -/
def relativeToRoot (resolved root : List Str) : Option (List Str) :=
  if root.isPrefixOf resolved then some (resolved.drop root.length) else none

/-- Python `rel.with_suffix("").as_posix()`: the slug of a corpus-relative path.
`none` when the relative path has no final component (`with_suffix` raises). -/
def slugOfRel (rel : List Str) : Option Str :=
  (withSuffixComps rel []).map (joinSep "/".data)

/-- Slug of a corpus-relative source-file path (`_load_notes`); file paths
from `rglob` always have a final component, so this is total. -/
def slugOfFile (rel : List Str) : Str :=
  joinSep "/".data (rel.dropLast ++ [
    let name := pathName rel
    let old := pySuffix name
    if old ≠ [] then name.take (name.length - old.length) else name])

/-- Python `rel_path.with_suffix(".html")` as a component list (`Note.html_path`). -/
def htmlPathOf (rel : List Str) : List Str :=
  let name := pathName rel
  let old := pySuffix name
  rel.dropLast ++ [(if old ≠ [] then name.take (name.length - old.length)
                    else name) ++ ".html".data]

/-- Python `"://" in target`. -/
def containsSub (pat s : Str) : Bool := (findFrom pat s).isSome

/-- One iteration of the `_extract_outgoing_slugs` loop for a single link
target: `ok none` means the target is skipped, `ok (some slug)` adds a slug,
`error` is an uncaught exception. -/
def processTarget (root curDir : List Str) (target : Str) :
    Except PyErr (Option Str) :=
  if target = [] ∨ pyStartsWith "#".data target ∨ containsSub "://".data target
      ∨ pyStartsWith "mailto:".data target then .ok none
  else
    let cleaned := target.takeWhile (· ≠ '#')
    if cleaned = [] then .ok none
    else
      let candidate := parsePath cleaned
      let resolveSlug : PPath → Except PyErr (Option Str) := fun cand =>
        let resolved := resolveComps (joinPath curDir cand)
        match relativeToRoot resolved root with
        | none => .ok none
        | some rel =>
          match slugOfRel rel with
          | none => .error .valueError
          | some slug => .ok (some slug)
      let sfx := pySuffix (pathName candidate.comps)
      if sfx = [] then
        match withSuffixComps candidate.comps ".md".data with
        | none => .error .valueError
        | some comps' => resolveSlug { candidate with comps := comps' }
      else if sfx ≠ ".md".data then .ok none
      else resolveSlug candidate

/-- Matches `LINK_PATTERN = r"\[[^\]]+\]\(([^)]+)\)"` matched at one `[`: a nonempty
`]`-free label, `](`, a nonempty `)`-free target, `)`.  Returns the target
and the remainder after the match. -/
def tryMatchSlug (l : Str) : Option (Str × Str) :=
  let lab := l.takeWhile (· ≠ ']')
  let r₀ := l.dropWhile (· ≠ ']')
  if lab = [] then none
  else if r₀ = [] then none
  else
    let r₁ := r₀.drop 1
    if r₁.head? ≠ some '(' then none
    else
      let r₂ := r₁.drop 1
      let tgt := r₂.takeWhile (· ≠ ')')
      let r₃ := r₂.dropWhile (· ≠ ')')
      if tgt = [] then none
      else if r₃ = [] then none
      else some (tgt, r₃.drop 1)

theorem tryMatchSlug_length {l tgt rem : Str}
    (h : tryMatchSlug l = some (tgt, rem)) : rem.length < l.length := by
  rw [tryMatchSlug] at h
  dsimp only at h
  split at h
  · cases h
  · split at h
    · cases h
    · split at h
      · cases h
      · split at h
        · cases h
        · split at h
          · cases h
          · rename_i hlab hr₀ hpar htgt hr₃
            cases Option.some.inj h
            have h1 : (l.dropWhile (· ≠ ']')).length ≤ l.length :=
              (List.dropWhile_sublist _).length_le
            have h2 : ((((l.dropWhile (· ≠ ']')).drop 1).drop 1).dropWhile
                (· ≠ ')')).length ≤
                (((l.dropWhile (· ≠ ']')).drop 1).drop 1).length :=
              (List.dropWhile_sublist _).length_le
            have h4 : (l.dropWhile (· ≠ ']')).length ≠ 0 :=
              fun hc => hr₀ (List.length_eq_zero.mp hc)
            have h5 : ((((l.dropWhile (· ≠ ']')).drop 1).drop 1).dropWhile
                (· ≠ ')')).length ≠ 0 :=
              fun hc => hr₃ (List.length_eq_zero.mp hc)
            simp only [List.length_drop] at *
            omega

/-- Computes `findLinkTargets` with structural fuel; every step consumes at least one
character, so `l.length + 1` units never run out (`findLinkTargetsF_congr`). -/
def findLinkTargetsF : Nat → Str → List Str
  | 0, _ => []
  | _ + 1, [] => []
  | fuel + 1, c :: rest =>
    if c = '[' then
      match tryMatchSlug rest with
      | some (target, rem) => target :: findLinkTargetsF fuel rem
      | none => findLinkTargetsF fuel rest
    else findLinkTargetsF fuel rest

/-- Python `LINK_PATTERN.finditer(body)`: the targets of all matches, left to
right, non-overlapping. -/
def findLinkTargets (l : Str) : List Str := findLinkTargetsF (l.length + 1) l

theorem findLinkTargetsF_congr :
    ∀ fuel₁ fuel₂ l, l.length < fuel₁ → l.length < fuel₂ →
      findLinkTargetsF fuel₁ l = findLinkTargetsF fuel₂ l := by
  intro fuel₁
  induction fuel₁ with
  | zero => intro fuel₂ l h₁ _; omega
  | succ f ih =>
    intro fuel₂ l h₁ h₂
    match fuel₂ with
    | 0 => omega
    | f₂ + 1 =>
      match l with
      | [] => rfl
      | c :: rest =>
        rw [findLinkTargetsF, findLinkTargetsF]
        simp only [List.length_cons] at h₁ h₂
        split
        · rcases hm : tryMatchSlug rest with - | ⟨target, rem⟩
          · exact ih f₂ rest (by omega) (by omega)
          · have := tryMatchSlug_length hm
            exact congrArg (fun x => target :: x) (ih f₂ rem (by omega) (by omega))
        · exact ih f₂ rest (by omega) (by omega)

/-- Python `set.add` on an insertion-ordered duplicate-free list. -/
def setInsert (s : Str) (l : List Str) : List Str :=
  if s ∈ l then l else l ++ [s]

/-- Embeds `_extract_outgoing_slugs` (generator.py).  `curDir` is the document's
containing directory, absolute; `root` the resolved corpus root. -/
def extractOutgoingSlugs (body : Str) (curDir root : List Str) :
    Except PyErr (List Str) :=
  (findLinkTargets body).foldlM
    (fun slugs target => do
      match ← processTarget root curDir target with
      | none => pure slugs
      | some slug => pure (setInsert slug slugs))
    []

/-!
Section: Notes: loading and the backlink graph

`Note` carries the fields of the dataclass that this core's claims are
about; `html_content` (markdown rendering, an external collaborator) and
`updated_at` (a filesystem timestamp) are not embedded.  The Python
`set[str]` of outgoing slugs is an insertion-ordered duplicate-free list;
its run-dependent iteration order is modelled by an explicit enumeration
parameter where it matters (`attachRawWith`). -/

/-- Embeds `NoteRef` (generator.py). -/
structure NoteRef where
  slug : Str
  title : Str
  htmlPath : List Str
deriving DecidableEq, Repr

/-- Embeds `Note` (generator.py), without the externally-produced
`html_content`/`updated_at` fields. -/
structure Note where
  sourcePath : List Str
  relPath : List Str
  slug : Str
  title : Str
  tags : List Str
  content : Str
  excerpt : Str
  outgoingSlugs : List Str
  backlinks : List NoteRef
deriving DecidableEq, Repr, Inhabited

/-- Association-list lookup with Python-`dict` key equality. -/
def lookupD {β : Type} (k : Str) (d : List (Str × β)) : Option β :=
  (d.find? (fun e => e.1 = k)).map (·.2)

/-- Embeds `_extract_heading` (generator.py): first line whose strip starts with
`#`, with leading `#` and space characters removed. -/
def extractHeading (body : Str) : Option Str :=
  ((pySplitlines body).find? (fun line => pyStartsWith "#".data (pyStrip line))).map
    (fun line => pyLstripSet "# ".data (pyStrip line))

/-- Python `metadata.get("title") or _extract_heading(body) or path.stem`:
Python's `or` also skips present-but-empty (falsy) values. -/
def resolveTitle (metadata : List (Str × MetaVal)) (body : Str) (stem : Str) :
    Str :=
  let metaTitle :=
    match lookupD "title".data metadata with
    | some (MetaVal.str v) => v
    | _ => []
  if metaTitle ≠ [] then metaTitle
  else
    match extractHeading body with
    | some h => if h ≠ [] then h else stem
    | none => stem

/-- Python `path.stem`: final component minus its suffix. -/
def pathStem (comps : List Str) : Str :=
  let name := pathName comps
  let old := pySuffix name
  if old ≠ [] then name.take (name.length - old.length) else name

/-- Embeds `_parse_note` (generator.py), minus markdown rendering and `stat()`;
the exception of `_extract_outgoing_slugs` propagates. -/
def parseNote (root : List Str) (relPath : List Str) (slug : Str)
    (text : Str) : Except PyErr Note :=
  let metadata := (splitFrontMatter text).1
  let body := (splitFrontMatter text).2
  match extractOutgoingSlugs body (root ++ relPath.dropLast) root with
  | .error e => .error e
  | .ok outgoing =>
    .ok
      { sourcePath := root ++ relPath
        relPath := relPath
        slug := slug
        title := resolveTitle metadata body (pathStem (root ++ relPath))
        tags := match lookupD "tags".data metadata with
          | some (MetaVal.tagList l) => l
          | _ => []
        content := body
        excerpt := createExcerptDefault body
        outgoingSlugs := outgoing
        backlinks := [] }

/-- Python `sorted(source_dir.rglob("*.md"))`: `pathlib` sorts by the tuple of path
components (each compared as a string), not by the joined string. -/
def sortFiles (files : List (List Str × Str)) : List (List Str × Str) :=
  sortByBool (fun f g => lePathComps f.1 g.1) files

/-- The `for path in sorted(...)` loop of `_load_notes`. -/
def loadNotesGo (root : List Str) :
    List (List Str × Str) → List (Str × Note) → Except PyErr (List (Str × Note))
  | [], notes => .ok notes
  | f :: fs, notes =>
    match parseNote root f.1 (slugOfFile f.1) f.2 with
    | .error e => .error e
    | .ok note => loadNotesGo root fs (dictInsert (slugOfFile f.1) note notes)

/-- Embeds `_load_notes` (generator.py): the corpus is given as the `rglob`
enumeration, each `.md` file as its root-relative component list with its
text. -/
def loadNotes (root : List Str) (files : List (List Str × Str)) :
    Except PyErr (List (Str × Note)) :=
  loadNotesGo root (sortFiles files) []

/-- The backlink reference appended for a linking note. -/
def mkRef (n : Note) : NoteRef :=
  { slug := n.slug, title := n.title, htmlPath := htmlPathOf n.relPath }

/-- Append `r` to the backlinks of the note stored under `s` (a no-op when
the key is absent — the `notes.get(slug) is None` guard). -/
def appendRef (s : Str) (r : NoteRef) (d : List (Str × Note)) :
    List (Str × Note) :=
  d.map (fun e =>
    if e.1 = s then (e.1, { e.2 with backlinks := e.2.backlinks ++ [r] })
    else e)

/-- The first two loops of `_attach_backlinks`: clear all backlinks, then
for every note (in dict order) and every outgoing slug (in the set's
iteration order, the `enumOut` parameter) append a reference to the target.
References read only fields untouched by the pass, so they are taken from
the pre-pass values, exactly as the mutation-order in the source. -/
def attachRawWith (enumOut : Note → List Str) (d : List (Str × Note)) :
    List (Str × Note) :=
  (d.map Prod.snd).foldl
    (fun acc A => (enumOut A).foldl (fun acc' s => appendRef s (mkRef A) acc') acc)
    (d.map (fun e => (e.1, { e.2 with backlinks := [] })))

/-- The final loop of `_attach_backlinks`: stable-sort every backlink list
by the referring title, lower-cased. -/
def sortBacklinks (d : List (Str × Note)) : List (Str × Note) :=
  d.map (fun e =>
    (e.1, { e.2 with
      backlinks := sortByKey (fun r => pyLower r.title) e.2.backlinks }))

/-- Embeds `_attach_backlinks` with an explicit set-iteration order. -/
def attachBacklinksWith (enumOut : Note → List Str) (d : List (Str × Note)) :
    List (Str × Note) :=
  sortBacklinks (attachRawWith enumOut d)

/-- Embeds `_attach_backlinks` (generator.py) at the canonical insertion-order
enumeration of each outgoing set. -/
def attachBacklinks (d : List (Str × Note)) : List (Str × Note) :=
  attachBacklinksWith (fun n => n.outgoingSlugs) d

/-- Load followed by the backlink pass: the part of `generate_site` that
produces the finalized note mapping. -/
def buildNotes (root : List Str) (files : List (List Str × Str)) :
    Except PyErr (List (Str × Note)) :=
  (loadNotes root files).map attachBacklinks

/-!
Section: Characterisation of the backlink pass -/

/-- What the raw pass puts into the backlink list stored under key `k`:
one reference per note `A` (in dict order) per occurrence of `k` in `A`'s
enumerated outgoing slugs. -/
def blSpec (enumOut : Note → List Str) (vals : List Note) (k : Str) :
    List NoteRef :=
  match vals with
  | [] => []
  | A :: rest => List.replicate ((enumOut A).count k) (mkRef A) ++ blSpec enumOut rest k

theorem foldl_appendRef (r : NoteRef) :
    ∀ (l : List Str) (d : List (Str × Note)),
      l.foldl (fun acc s => appendRef s r acc) d =
        d.map (fun kn => (kn.1,
          { kn.2 with backlinks := kn.2.backlinks ++ List.replicate (l.count kn.1) r })) := by
  intro l
  induction l with
  | nil =>
    intro d
    simp only [List.foldl_nil, List.count_nil, List.replicate_zero,
      List.append_nil]
    exact (List.map_id d).symm
  | cons s l ih =>
    intro d
    rw [List.foldl_cons, ih, appendRef, List.map_map]
    apply List.map_congr_left
    intro kn _
    simp only [Function.comp]
    by_cases hk : kn.1 = s
    · rw [if_pos hk, hk]
      simp only [Prod.mk.injEq, true_and]
      rw [List.count_cons_self, List.append_assoc, List.singleton_append,
        ← List.replicate_succ]
    · rw [if_neg hk]
      simp only [Prod.mk.injEq, true_and]
      rw [List.count_cons_of_ne hk]

theorem foldl_attach_outer (enumOut : Note → List Str) :
    ∀ (vals : List Note) (d : List (Str × Note)),
      vals.foldl
        (fun acc A => (enumOut A).foldl (fun acc' s => appendRef s (mkRef A) acc') acc)
        d =
      d.map (fun kn => (kn.1,
        { kn.2 with backlinks := kn.2.backlinks ++ blSpec enumOut vals kn.1 })) := by
  intro vals
  induction vals with
  | nil =>
    intro d
    simp only [List.foldl_nil, blSpec, List.append_nil]
    exact (List.map_id d).symm
  | cons A vals ih =>
    intro d
    rw [List.foldl_cons, foldl_appendRef, ih, List.map_map]
    apply List.map_congr_left
    intro kn _
    simp only [Function.comp, blSpec, List.append_assoc]

/-- The raw backlink pass, in closed form. -/
theorem attachRawWith_eq (enumOut : Note → List Str) (d : List (Str × Note)) :
    attachRawWith enumOut d =
      d.map (fun kn => (kn.1,
        { kn.2 with backlinks := blSpec enumOut (d.map Prod.snd) kn.1 })) := by
  rw [attachRawWith, foldl_attach_outer, List.map_map]
  apply List.map_congr_left
  intro kn _
  simp only [Function.comp, List.nil_append]

/-- The whole backlink pass, in closed form: the raw list under each key,
stable-sorted by lower-cased referring title. -/
theorem attachBacklinksWith_eq (enumOut : Note → List Str)
    (d : List (Str × Note)) :
    attachBacklinksWith enumOut d =
      d.map (fun kn => (kn.1,
        { kn.2 with backlinks := (sortByKey (fun r => pyLower r.title)
            (blSpec enumOut (d.map Prod.snd) kn.1)) })) := by
  rw [attachBacklinksWith, sortBacklinks, attachRawWith_eq, List.map_map]
  apply List.map_congr_left
  intro kn _
  simp only [Function.comp]

theorem blSpec_mem (enumOut : Note → List Str) (vals : List Note) (k : Str)
    (r : NoteRef) :
    r ∈ blSpec enumOut vals k ↔
      ∃ A ∈ vals, k ∈ enumOut A ∧ r = mkRef A := by
  induction vals with
  | nil => simp [blSpec]
  | cons A vals ih =>
    simp only [blSpec, List.mem_append, List.mem_replicate, ih,
      List.mem_cons]
    constructor
    · rintro (⟨hcount, rfl⟩ | ⟨A', hA', hk, rfl⟩)
      · exact ⟨A, Or.inl rfl, List.count_pos_iff.mp (by omega), rfl⟩
      · exact ⟨A', Or.inr hA', hk, rfl⟩
    · rintro ⟨A', hA', hk, rfl⟩
      rcases hA' with rfl | hA'
      · exact Or.inl ⟨Nat.pos_iff_ne_zero.mp (List.count_pos_iff.mpr hk), rfl⟩
      · exact Or.inr ⟨A', hA', hk, rfl⟩

theorem blSpec_congr {e₁ e₂ : Note → List Str}
    (h : ∀ n, List.Perm (e₁ n) (e₂ n)) (vals : List Note) (k : Str) :
    blSpec e₁ vals k = blSpec e₂ vals k := by
  induction vals with
  | nil => rfl
  | cons A vals ih =>
    simp only [blSpec, ih, List.count]
    rw [List.Perm.countP_eq _ (h A)]

/-!
Section: Well-formedness of the loaded dictionary -/

/-- The structural invariants of the note dict: keys are unique (Python
`dict`) and every note is stored under its own slug. -/
def WFDict (d : List (Str × Note)) : Prop :=
  (d.map Prod.fst).Nodup ∧ ∀ kn ∈ d, kn.2.slug = kn.1

theorem dictInsert_wf {d : List (Str × Note)} {k : Str} {v : Note}
    (hwf : WFDict d) (hv : v.slug = k) : WFDict (dictInsert k v d) := by
  obtain ⟨hnd, hslug⟩ := hwf
  rw [dictInsert]
  split
  · constructor
    · have : ((d.map (fun e => if e.1 = k then (k, v) else e)).map Prod.fst) =
          d.map Prod.fst := by
        rw [List.map_map]
        apply List.map_congr_left
        intro e _
        simp only [Function.comp]
        split
        · rename_i he; rw [← he]
        · rfl
      rw [this]
      exact hnd
    · intro kn hkn
      rw [List.mem_map] at hkn
      obtain ⟨e, he, heq⟩ := hkn
      by_cases hek : e.1 = k
      · rw [if_pos hek] at heq
        rw [← heq]
        exact hv
      · rw [if_neg hek] at heq
        rw [← heq]
        exact hslug e he
  · rename_i hany
    constructor
    · rw [List.map_append]
      have hk : k ∉ d.map Prod.fst := by
        intro hc
        rw [List.mem_map] at hc
        obtain ⟨e, he, heq⟩ := hc
        exact hany (List.any_eq_true.mpr ⟨e, he, decide_eq_true heq⟩)
      simp only [List.map_cons, List.map_nil]
      rw [List.nodup_append]
      refine ⟨hnd, List.nodup_singleton k, fun a ha hb => ?_⟩
      rw [List.mem_singleton] at hb
      subst hb
      exact hk ha
    · intro kn hkn
      rw [List.mem_append] at hkn
      rcases hkn with h | h
      · exact hslug kn h
      · rw [List.mem_singleton] at h
        rw [h]
        exact hv

theorem parseNote_slug {root relPath : List Str} {slug : Str} {text : Str}
    {n : Note} (h : parseNote root relPath slug text = .ok n) :
    n.slug = slug := by
  unfold parseNote at h
  dsimp only at h
  split at h
  · cases h
  · cases h
    rfl

theorem loadNotesGo_wf {root : List Str} :
    ∀ (fs : List (List Str × Str)) (d₀ d : List (Str × Note)),
      WFDict d₀ → loadNotesGo root fs d₀ = .ok d → WFDict d := by
  intro fs
  induction fs with
  | nil =>
    intro d₀ d hwf h
    cases h
    exact hwf
  | cons f fs ih =>
    intro d₀ d hwf h
    rw [loadNotesGo] at h
    split at h
    · cases h
    · rename_i note hnote
      exact ih _ d (dictInsert_wf hwf (parseNote_slug hnote)) h

theorem loadNotes_wf {root : List Str} {files : List (List Str × Str)}
    {d : List (Str × Note)} (h : loadNotes root files = .ok d) : WFDict d :=
  loadNotesGo_wf _ [] d ⟨List.nodup_nil, by intro kn hkn; cases hkn⟩ h

theorem nodup_keys_entry_unique {d : List (Str × Note)} {k : Str}
    {A B : Note} (hnd : (d.map Prod.fst).Nodup)
    (hA : (k, A) ∈ d) (hB : (k, B) ∈ d) : A = B := by
  induction d with
  | nil => cases hA
  | cons e d ih =>
    rw [List.map_cons, List.nodup_cons] at hnd
    rcases List.mem_cons.mp hA with h1 | h1 <;> rcases List.mem_cons.mp hB with h2 | h2
    · have h3 : (k, A) = (k, B) := h1.trans h2.symm
      injection h3 with _ h4
    · subst h1
      exact absurd (List.mem_map.mpr ⟨(k, B), h2, rfl⟩) hnd.1
    · subst h2
      exact absurd (List.mem_map.mpr ⟨(k, A), h1, rfl⟩) hnd.1
    · exact ih hnd.2 h1 h2

/-- In a well-formed dict, the slug determines the note. -/
theorem wf_vals_slug_inj {d : List (Str × Note)} (hwf : WFDict d)
    {A B : Note} (hA : A ∈ d.map Prod.snd) (hB : B ∈ d.map Prod.snd)
    (hs : A.slug = B.slug) : A = B := by
  rw [List.mem_map] at hA hB
  obtain ⟨⟨k₁, A'⟩, hA', hA'eq⟩ := hA
  obtain ⟨⟨k₂, B'⟩, hB', hB'eq⟩ := hB
  cases hA'eq
  cases hB'eq
  have h₁ : A'.slug = k₁ := hwf.2 _ hA'
  have h₂ : B'.slug = k₂ := hwf.2 _ hB'
  have hk : k₁ = k₂ := by rw [← h₁, ← h₂]; exact hs
  subst hk
  exact nodup_keys_entry_unique hwf.1 hA' hB'

/-- Lemma: `mkRef` reads only fields the backlink pass never writes. -/
theorem mkRef_set_backlinks (n : Note) (bl : List NoteRef) :
    mkRef { n with backlinks := bl } = mkRef n := rfl

/-- Membership in the values of the finished dict, in terms of the loaded
dict. -/
theorem mem_attach_vals {enumOut : Note → List Str} {d : List (Str × Note)}
    {A : Note} :
    A ∈ (attachBacklinksWith enumOut d).map Prod.snd ↔
      ∃ kn ∈ d, A = { kn.2 with backlinks := (sortByKey (fun r => pyLower r.title)
        (blSpec enumOut (d.map Prod.snd) kn.1)) } := by
  rw [attachBacklinksWith_eq, List.map_map, List.mem_map]
  constructor
  · rintro ⟨kn, hkn, heq⟩
    exact ⟨kn, hkn, heq.symm⟩
  · rintro ⟨kn, hkn, heq⟩
    exact ⟨kn, hkn, heq.symm⟩

theorem attachBacklinksWith_wf {enumOut : Note → List Str}
    {d : List (Str × Note)} (hwf : WFDict d) :
    WFDict (attachBacklinksWith enumOut d) := by
  rw [attachBacklinksWith_eq]
  constructor
  · have : ((d.map (fun kn => ((kn : Str × Note).1,
        { kn.2 with backlinks := (sortByKey (fun r => pyLower r.title)
          (blSpec enumOut (d.map Prod.snd) kn.1)) }))).map Prod.fst) =
        d.map Prod.fst := by
      rw [List.map_map]
      apply List.map_congr_left
      intro kn _
      rfl
    rw [this]
    exact hwf.1
  · intro kn hkn
    rw [List.mem_map] at hkn
    obtain ⟨e, he, heq⟩ := hkn
    rw [← heq]
    exact hwf.2 e he

/-!
Section: Tags: grouping, slugification and collision-free path assignment -/

/-- Python `dict.setdefault(tag, []).append(note)`. -/
def dictAppendAt (k : Str) (n : Note) (m : List (Str × List Note)) :
    List (Str × List Note) :=
  if m.any (fun e => e.1 = k) then
    m.map (fun e => if e.1 = k then (e.1, e.2 ++ [n]) else e)
  else m ++ [(k, [n])]

/-- Embeds `_collect_tags` (generator.py): group notes by tag (dict order), sort
each group by `(title.lower(), slug)`, sort the mapping by lower-cased tag. -/
def collectTags (notes : List Note) : List (Str × List Note) :=
  let tagMap := notes.foldl (fun m n => n.tags.foldl (fun m' t => dictAppendAt t n m') m) []
  let sortedGroups := tagMap.map (fun e =>
    (e.1, sortByBool (fun m n => lePairChars (pyLower m.title, m.slug)
      (pyLower n.title, n.slug)) e.2))
  sortByKey (fun e => pyLower e.1) sortedGroups

/-- Scanner for `re.sub(r"\s+", "-", s)`: `prevWs` records whether the
previous character belonged to a whitespace run already replaced. -/
def replaceWsRunsAux : Bool → Str → Str
  | _, [] => []
  | prevWs, c :: rest =>
    if isReWs c then
      if prevWs then replaceWsRunsAux true rest
      else '-' :: replaceWsRunsAux true rest
    else c :: replaceWsRunsAux false rest

/-- Python `re.sub(r"\s+", "-", s)`: replace each maximal `\s` run with one `-`. -/
def replaceWsRuns (s : Str) : Str := replaceWsRunsAux false s

/-- Membership in the allow-list class
`[0-9A-Za-z\-_.ぁ-んァ-ヴー一-龯ー]` of `_slugify_tag` (hiragana U+3041–U+3093,
katakana U+30A1–U+30F4, the long-vowel mark U+30FC, CJK U+4E00–U+9FAF). -/
def isAllowedTagChar (c : Char) : Bool :=
  let v := c.toNat
  (48 ≤ v && v ≤ 57) || (65 ≤ v && v ≤ 90) || (97 ≤ v && v ≤ 122) ||
  v = 45 || v = 95 || v = 46 ||
  (0x3041 ≤ v && v ≤ 0x3093) || (0x30A1 ≤ v && v ≤ 0x30F4) || v = 0x30FC ||
  (0x4E00 ≤ v && v ≤ 0x9FAF)

/-- UTF-8 encoding of one code point. -/
def utf8Bytes (c : Char) : List Nat :=
  let v := c.toNat
  if v < 0x80 then [v]
  else if v < 0x800 then [0xC0 + v / 64, 0x80 + v % 64]
  else if v < 0x10000 then [0xE0 + v / 4096, 0x80 + v / 64 % 64, 0x80 + v % 64]
  else [0xF0 + v / 262144, 0x80 + v / 4096 % 64, 0x80 + v / 64 % 64, 0x80 + v % 64]

/-- A byte kept verbatim by `urllib.parse.quote` (its always-safe set:
ASCII alphanumerics and `_.-~`). -/
def isQuoteSafeByte (b : Nat) : Bool :=
  (48 ≤ b && b ≤ 57) || (65 ≤ b && b ≤ 90) || (97 ≤ b && b ≤ 122) ||
  b = 95 || b = 46 || b = 45 || b = 126

/-- Upper-case hexadecimal digit. -/
def hexDigitChar (n : Nat) : Char :=
  if n < 10 then Char.ofNat (48 + n) else Char.ofNat (55 + n)

/-- Python `urllib.parse.quote(s, safe="")`: percent-encode every UTF-8 byte
outside the always-safe set. -/
def pctQuote (s : Str) : Str :=
  s.flatMap (fun c => (utf8Bytes c).flatMap (fun b =>
    if isQuoteSafeByte b then [Char.ofNat b]
    else ['%', hexDigitChar (b / 16), hexDigitChar (b % 16)]))

/-- Embeds `_slugify_tag` (generator.py). -/
def slugifyTag (tag : Str) : Str :=
  let safe₁ := replaceWsRuns (pyStrip tag)
  let safe₂ := safe₁.filter isAllowedTagChar
  pyLower (if safe₂ = [] then pctQuote tag else safe₂)

/-- Decimal digits with structural fuel; one digit is produced per unit, so
`n + 1` units never run out (`digitsVal_natDigits` shows the rendering is
exactly decimal). -/
def natDigitsF : Nat → Nat → Str
  | 0, _ => []
  | fuel + 1, n =>
    if n < 10 then [Char.ofNat (48 + n)]
    else natDigitsF fuel (n / 10) ++ [Char.ofNat (48 + n % 10)]

/-- Decimal digits of a natural number (`f"{counter}"`). -/
def natDigits (n : Nat) : Str := natDigitsF (n + 1) n

/-- Value of a digit string, inverse of `natDigits`. -/
def digitsVal (l : Str) : Nat :=
  l.foldl (fun a c => a * 10 + (c.toNat - 48)) 0

theorem digitsVal_append (l : Str) (c : Char) :
    digitsVal (l ++ [c]) = 10 * digitsVal l + (c.toNat - 48) := by
  unfold digitsVal
  rw [List.foldl_append]
  simp [Nat.mul_comm]

theorem digitsVal_natDigitsF :
    ∀ fuel n, n < fuel → digitsVal (natDigitsF fuel n) = n := by
  intro fuel
  induction fuel with
  | zero => intro n h; omega
  | succ f ih =>
    intro n h
    rw [natDigitsF]
    split
    · rename_i hn
      unfold digitsVal
      simp only [List.foldl_cons, List.foldl_nil, Nat.zero_mul, Nat.zero_add]
      interval_cases n <;> decide
    · rename_i hn
      have hdiv : n / 10 < f := by
        have := Nat.div_lt_self (show 0 < n by omega) (show 1 < 10 by omega)
        omega
      rw [digitsVal_append, ih (n / 10) hdiv]
      have hc : (Char.ofNat (48 + n % 10)).toNat - 48 = n % 10 := by
        have hm : n % 10 < 10 := Nat.mod_lt _ (by omega)
        set m := n % 10 with hmdef
        interval_cases m <;> decide
      rw [hc]
      omega

theorem digitsVal_natDigits (n : Nat) : digitsVal (natDigits n) = n :=
  digitsVal_natDigitsF (n + 1) n (by omega)

theorem natDigits_injective {m n : Nat} (h : natDigits m = natDigits n) :
    m = n := by
  have := digitsVal_natDigits m
  rw [h, digitsVal_natDigits] at this
  omega

/-- The candidate tried at loop counter `k` in `_build_tag_paths`:
the base name for the initial `counter = 1`, `f"{base}-{k}"` afterwards. -/
def tagCand (base : Str) (k : Nat) : Str :=
  if k ≤ 1 then base else base ++ '-' :: natDigits k

/-- The `while candidate in used` loop of `_build_tag_paths`, with enough
fuel to be exhaustive over `used` (proved never to run out:
`pickCandidate_not_mem`). -/
def pickGo (used : List Str) (base : Str) : Nat → Nat → Str
  | 0, counter => tagCand base counter
  | fuel + 1, counter =>
    if tagCand base counter ∈ used then pickGo used base fuel (counter + 1)
    else tagCand base counter

/-- The candidate assigned to a tag whose base identifier may collide. -/
def pickCandidate (used : List Str) (base : Str) : Str :=
  pickGo used base (used.length + 1) 1

theorem natDigits_ne_nil (n : Nat) : natDigits n ≠ [] := by
  rw [natDigits, natDigitsF]
  split <;> simp

theorem tagCand_inj {base : Str} :
    ∀ {j k : Nat}, 1 ≤ j → 1 ≤ k → tagCand base j = tagCand base k →
      j = k := by
  intro j k hj hk h
  rw [tagCand, tagCand] at h
  by_cases hj1 : j ≤ 1 <;> by_cases hk1 : k ≤ 1
  · omega
  · rw [if_pos hj1, if_neg hk1] at h
    have hlen := congrArg List.length h
    simp at hlen
  · rw [if_neg hj1, if_pos hk1] at h
    have hlen := congrArg List.length h
    simp at hlen
  · rw [if_neg hj1, if_neg hk1] at h
    have h' := List.append_cancel_left h
    exact natDigits_injective (List.cons.inj h').2

theorem exists_cand_not_mem (used : List Str) (base : Str) :
    ∃ i, i < used.length + 1 ∧ tagCand base (1 + i) ∉ used := by
  by_contra hcon
  push_neg at hcon
  have hmaps : ∀ i : Fin (used.length + 1),
      i ∈ Finset.univ → tagCand base (1 + i) ∈ used.toFinset :=
    fun i _ => List.mem_toFinset.mpr (hcon i i.isLt)
  have hinj : Set.InjOn (fun i : Fin (used.length + 1) => tagCand base (1 + i))
      ↑(Finset.univ : Finset (Fin (used.length + 1))) := by
    intro i _ j _ hij
    have := tagCand_inj (by omega) (by omega) hij
    exact Fin.ext (by omega)
  have hcard := Finset.card_le_card_of_injOn _ hmaps hinj
  rw [Finset.card_univ, Fintype.card_fin] at hcard
  have := used.toFinset_card_le
  omega

theorem pickGo_not_mem (used : List Str) (base : Str) :
    ∀ (fuel counter : Nat),
      (∃ i, i < fuel ∧ tagCand base (counter + i) ∉ used) →
      pickGo used base fuel counter ∉ used := by
  intro fuel
  induction fuel with
  | zero =>
    rintro counter ⟨i, hi, -⟩
    omega
  | succ f ih =>
    rintro counter ⟨i, hi, hfree⟩
    rw [pickGo]
    split
    · rename_i hmem
      apply ih (counter + 1)
      match i, hfree with
      | 0, hfree => exact absurd hmem hfree
      | i + 1, hfree =>
        exact ⟨i, by omega, by rwa [show counter + 1 + i = counter + (i + 1) by omega]⟩
    · rename_i hmem
      exact hmem

/-- The `while` loop of `_build_tag_paths` always exits on a candidate that
is not yet used. -/
theorem pickCandidate_not_mem (used : List Str) (base : Str) :
    pickCandidate used base ∉ used := by
  apply pickGo_not_mem
  obtain ⟨i, hi, hfree⟩ := exists_cand_not_mem used base
  exact ⟨i, hi, hfree⟩

/-- One iteration of the `_build_tag_paths` loop. -/
def tagStep (st : List Str × List (Str × Str)) (tag : Str) :
    List Str × List (Str × Str) :=
  let candidate := pickCandidate st.1 (slugifyTag tag)
  (st.1 ++ [candidate],
   dictInsert tag ("tags/".data ++ candidate ++ ".html".data) st.2)

/-- Embeds `_build_tag_paths` (generator.py): tags in case-insensitive sorted
order; each maps to `tags/{candidate}.html`. -/
def buildTagPaths (tags : List Str) : List (Str × Str) :=
  ((sortByKey (fun t => pyLower t) tags).foldl tagStep ([], [])).2

theorem dictInsert_append {β : Type} {k : Str} {v : β} {d : List (Str × β)}
    (h : k ∉ d.map Prod.fst) : dictInsert k v d = d ++ [(k, v)] := by
  rw [dictInsert, if_neg]
  intro hc
  rw [List.any_eq_true] at hc
  obtain ⟨e, he, heq⟩ := hc
  exact h (List.mem_map.mpr ⟨e, he, of_decide_eq_true heq⟩)

theorem wrapTag_inj {c c' : Str}
    (h : "tags/".data ++ c ++ ".html".data = "tags/".data ++ c' ++ ".html".data) :
    c = c' := by
  rw [List.append_assoc, List.append_assoc] at h
  exact List.append_cancel_right (List.append_cancel_left h)

/-- Invariant of the `_build_tag_paths` loop: assigned tags are distinct,
assigned paths are distinct, and every assigned path wraps a used
candidate. -/
def TagInv (st : List Str × List (Str × Str)) : Prop :=
  (st.2.map Prod.fst).Nodup ∧ (st.2.map Prod.snd).Nodup ∧
  ∀ p ∈ st.2.map Prod.snd, ∃ c ∈ st.1, p = "tags/".data ++ c ++ ".html".data

theorem tagStep_inv {st : List Str × List (Str × Str)} {t : Str}
    (hinv : TagInv st) (hfr : t ∉ st.2.map Prod.fst) :
    TagInv (tagStep st t) ∧
      (tagStep st t).2.map Prod.fst = st.2.map Prod.fst ++ [t] := by
  obtain ⟨hk, hs, hc⟩ := hinv
  rw [tagStep]
  dsimp only
  rw [dictInsert_append hfr]
  have hfresh : "tags/".data ++ pickCandidate st.1 (slugifyTag t) ++ ".html".data ∉
      st.2.map Prod.snd := by
    intro hmem
    obtain ⟨c, hcu, hceq⟩ := hc _ hmem
    exact pickCandidate_not_mem st.1 (slugifyTag t) (wrapTag_inj hceq.symm ▸ hcu)
  refine ⟨⟨?_, ?_, ?_⟩, ?_⟩
  · rw [List.map_append, List.map_cons, List.map_nil, List.nodup_append]
    refine ⟨hk, List.nodup_singleton t, fun a ha hb => ?_⟩
    rw [List.mem_singleton] at hb
    subst hb
    exact hfr ha
  · rw [List.map_append, List.map_cons, List.map_nil, List.nodup_append]
    refine ⟨hs, List.nodup_singleton _, fun a ha hb => ?_⟩
    rw [List.mem_singleton] at hb
    subst hb
    exact hfresh ha
  · intro p hp
    rw [List.map_append, List.mem_append] at hp
    rcases hp with hp | hp
    · obtain ⟨c, hcu, hceq⟩ := hc p hp
      exact ⟨c, List.mem_append_left _ hcu, hceq⟩
    · rw [List.map_cons, List.map_nil, List.mem_singleton] at hp
      exact ⟨pickCandidate st.1 (slugifyTag t),
        List.mem_append_right _ (List.mem_singleton_self _), hp⟩
  · rw [List.map_append]
    rfl

theorem tagFold_inv :
    ∀ (L : List Str) (st : List Str × List (Str × Str)),
      TagInv st → L.Nodup → (∀ t ∈ L, t ∉ st.2.map Prod.fst) →
      TagInv (L.foldl tagStep st) := by
  intro L
  induction L with
  | nil => intro st h _ _; exact h
  | cons t L ih =>
    intro st hinv hnd hfresh
    rw [List.foldl_cons]
    obtain ⟨hstep, hkeys⟩ := tagStep_inv hinv (hfresh t (List.mem_cons_self t L))
    rw [List.nodup_cons] at hnd
    apply ih _ hstep hnd.2
    intro t' ht'
    rw [hkeys, List.mem_append, List.mem_singleton]
    rintro (hin | rfl)
    · exact hfresh t' (List.mem_cons_of_mem t ht') hin
    · exact hnd.1 ht'

theorem nodup_snds_entry_unique {β γ : Type} [DecidableEq β] [DecidableEq γ]
    {d : List (β × γ)} {b₁ b₂ : β} {c : γ}
    (h : (d.map Prod.snd).Nodup) (h₁ : (b₁, c) ∈ d) (h₂ : (b₂, c) ∈ d) :
    b₁ = b₂ := by
  induction d with
  | nil => cases h₁
  | cons e d ih =>
    rw [List.map_cons, List.nodup_cons] at h
    rcases List.mem_cons.mp h₁ with g1 | g1 <;> rcases List.mem_cons.mp h₂ with g2 | g2
    · have h3 : ((b₁, c) : β × γ) = (b₂, c) := g1.trans g2.symm
      injection h3 with h4 _
    · subst g1
      exact absurd (List.mem_map.mpr ⟨(b₂, c), g2, rfl⟩) h.1
    · subst g2
      exact absurd (List.mem_map.mpr ⟨(b₁, c), g1, rfl⟩) h.1
    · exact ih h.2 g1 g2

/-- The paths assigned by `_build_tag_paths` are pairwise distinct. -/
theorem buildTagPaths_inv (tags : List Str) (htags : tags.Nodup) :
    (((buildTagPaths tags).map Prod.fst).Nodup ∧
      ((buildTagPaths tags).map Prod.snd).Nodup) := by
  have hsorted : (sortByKey (fun t => pyLower t) tags).Nodup :=
    ((sortByKey_perm (fun t => pyLower t) tags).nodup_iff).mpr htags
  have h := tagFold_inv (sortByKey (fun t => pyLower t) tags) ([], [])
    ⟨List.nodup_nil, List.nodup_nil, by intro p hp; cases hp⟩
    hsorted
    (by intro t _ hc; cases hc)
  exact ⟨h.1, h.2.1⟩

/-- The full core pipeline whose outputs §6 exposes: the note mapping, the
tag groups and the tag paths, with the set-iteration order explicit. -/
def siteDataWith (enumOut : Note → List Str) (root : List Str)
    (files : List (List Str × Str)) :
    Except PyErr (List (Str × Note) × List (Str × List Note) × List (Str × Str)) :=
  match loadNotes root files with
  | .error e => .error e
  | .ok loaded =>
    let notes := attachBacklinksWith enumOut loaded
    let tagMap := collectTags (notes.map Prod.snd)
    .ok (notes, tagMap, buildTagPaths (tagMap.map Prod.fst))

/-!
Section: Claims

One theorem per claim of the specification, preceded by supporting
instances, concrete corpora and small helper lemmas. -/

instance {ε α : Type} [DecidableEq ε] [DecidableEq α] :
    DecidableEq (Except ε α) := fun a b =>
  match a, b with
  | .ok x, .ok y =>
    if h : x = y then isTrue (by rw [h])
    else isFalse (fun hc => by cases hc; exact h rfl)
  | .error x, .error y =>
    if h : x = y then isTrue (by rw [h])
    else isFalse (fun hc => by cases hc; exact h rfl)
  | .ok _, .error _ => isFalse (fun hc => by cases hc)
  | .error _, .ok _ => isFalse (fun hc => by cases hc)

/-- A corpus root used by the concrete corpora below. -/
def kbRoot : List Str := ["kb".data]

theorem fm_fold_all_meta :
    ∀ (rest ml bl : List Str),
      (∀ line ∈ rest, pyStrip line ≠ "---".data) →
      rest.foldl fmStep (true, ml, bl) = (true, ml ++ rest, bl) := by
  intro rest
  induction rest with
  | nil => intro ml bl _; simp
  | cons line rest ih =>
    intro ml bl h
    rw [List.foldl_cons]
    have hstep : fmStep (true, ml, bl) line = (true, ml ++ [line], bl) := by
      rw [fmStep,
        if_neg (show ¬(((true, ml, bl) : Bool × List Str × List Str).1 = true ∧
            pyStrip line = "---".data) from
          fun hc => h line (List.mem_cons_self line rest) hc.2),
        if_pos rfl]
    rw [hstep, ih (ml ++ [line]) bl (fun l hl => h l (List.mem_cons_of_mem _ hl)),
      List.append_assoc, List.singleton_append]

/-- Claim C7 (amended): for every document text whose first line does not
*strip* to `---` (the code's guard; exact equality is not required),
front-matter parsing returns empty metadata and the body is the full text
unchanged. -/
theorem c7_no_front_matter (text : Str) (h : firstLineDelim text = false) :
    splitFrontMatter text = ([], text) := by
  rw [splitFrontMatter]
  split
  · rfl
  · rename_i l₀ rest heq
    rw [firstLineDelim, heq] at h
    have h' : decide (pyStrip l₀ = "---".data) = false := h
    rw [if_pos (of_decide_eq_false h')]

/-- Witness for `c7_no_front_matter`. -/
theorem c7_no_front_matter_witness :
    firstLineDelim "hello world".data = false ∧
    splitFrontMatter "hello world".data = ([], "hello world".data) :=
  ⟨by decide, c7_no_front_matter "hello world".data (by decide)⟩

/-- The text whose first line is `" ---"` (leading space). -/
def c7text : Str := " ---\ntitle: x\n---\nbody".data

/-- Claim C7 as stated is refuted: a first line that is not exactly `---` but
strips to it is still treated as a front-matter delimiter, so the claim "not
exactly `---` implies empty metadata and unchanged body" is false. -/
theorem c7_counterexample :
    (pySplitlines c7text).head? = some " ---".data ∧
    ¬ (" ---".data = ("---".data : Str)) ∧
    ¬ (splitFrontMatter c7text = ([], c7text)) := by
  refine ⟨by decide, by decide, by decide⟩

/-- Claim C10: if the first line passes the delimiter guard and no later line
strips to `---`, every later line is parsed as metadata and the returned
body is the empty string. -/
theorem c10_unterminated_front_matter (text : Str)
    (h₁ : firstLineDelim text = true)
    (h₂ : ∀ line ∈ (pySplitlines text).drop 1, pyStrip line ≠ "---".data) :
    splitFrontMatter text = (parseMetadata ((pySplitlines text).drop 1), []) := by
  rw [splitFrontMatter]
  split
  · rename_i heq
    rw [firstLineDelim, heq] at h₁
    exact absurd h₁ (by decide)
  · rename_i l₀ rest heq
    rw [firstLineDelim, heq] at h₁
    have hstrip : pyStrip l₀ = "---".data := of_decide_eq_true h₁
    rw [if_neg (not_not_intro hstrip)]
    rw [heq, List.drop_one, List.tail_cons] at h₂
    dsimp only
    rw [fm_fold_all_meta rest [] [] h₂]
    rw [heq, List.drop_one, List.tail_cons]
    rfl

/-- A document with an unterminated front-matter block. -/
def c10text : Str := "---\ntitle: a\nhello".data

/-- Witness for `c10_unterminated_front_matter`. -/
theorem c10_unterminated_front_matter_witness :
    firstLineDelim c10text = true ∧
    (∀ line ∈ (pySplitlines c10text).drop 1, pyStrip line ≠ "---".data) ∧
    splitFrontMatter c10text = (parseMetadata ((pySplitlines c10text).drop 1), []) :=
  ⟨by decide, by decide,
    c10_unterminated_front_matter c10text (by decide) (by decide)⟩

theorem pyRstrip_length_le (s : Str) : (pyRstrip s).length ≤ s.length := by
  rw [pyRstrip, List.length_reverse]
  calc (s.reverse.dropWhile isPyWs).length ≤ s.reverse.length :=
        (List.dropWhile_sublist _).length_le
    _ = s.length := List.length_reverse s

theorem pySliceTo_length_le (n : Int) (hn : 0 ≤ n) (l : Str) :
    ((pySliceTo n l).length : Int) ≤ n := by
  rw [pySliceTo, if_pos hn]
  have h : (l.take n.toNat).length ≤ n.toNat := by
    rw [List.length_take]
    omega
  calc ((l.take n.toNat).length : Int) ≤ (n.toNat : Int) := by exact_mod_cast h
    _ = n := Int.toNat_of_nonneg hn

/-- Claim C6 (amended): for every body text and every configured maximum
length of at least 1, the excerpt is at most that long; and when the
collapsed plain text exceeds the maximum, the excerpt is the right-trimmed
truncation to at most `max - 1` characters with exactly one ellipsis
appended.  (The truncated prefix may itself end in ellipsis characters that
came from the text, and a maximum of `0` makes Python's `collapsed[:-1]`
slice keep everything but one character, so both parts of the original
claim need these qualifications.) -/
theorem c6_excerpt_length (text : Str) (maxLength : Int)
    (hmax : 1 ≤ maxLength) :
    ((createExcerpt maxLength text).length : Int) ≤ maxLength ∧
    (((collapseWs (stripMarkup (replaceLinksEx (removeFenced text)))).length : Int) >
        maxLength →
      createExcerpt maxLength text =
        pyRstrip (pySliceTo (maxLength - 1)
          (collapseWs (stripMarkup (replaceLinksEx (removeFenced text))))) ++
          "…".data ∧
      ((pyRstrip (pySliceTo (maxLength - 1)
          (collapseWs (stripMarkup (replaceLinksEx (removeFenced text)))))).length : Int) ≤
        maxLength - 1) := by
  have hslice := pySliceTo_length_le (maxLength - 1) (by omega)
    (collapseWs (stripMarkup (replaceLinksEx (removeFenced text))))
  have hrstrip := pyRstrip_length_le (pySliceTo (maxLength - 1)
    (collapseWs (stripMarkup (replaceLinksEx (removeFenced text)))))
  rw [createExcerpt]
  dsimp only
  split
  · rename_i hle
    exact ⟨hle, fun hgt => absurd hle (by omega)⟩
  · rename_i hgt
    have hlen : ((pyRstrip (pySliceTo (maxLength - 1)
        (collapseWs (stripMarkup (replaceLinksEx (removeFenced text)))))).length : Int) ≤
        maxLength - 1 := by
      have : ((pyRstrip (pySliceTo (maxLength - 1)
          (collapseWs (stripMarkup (replaceLinksEx (removeFenced text)))))).length : Int) ≤
          ((pySliceTo (maxLength - 1)
            (collapseWs (stripMarkup (replaceLinksEx (removeFenced text))))).length : Int) := by
        exact_mod_cast hrstrip
      omega
    constructor
    · rw [List.length_append]
      have h1 : ("…".data : Str).length = 1 := rfl
      rw [h1]
      push_cast
      omega
    · intro _
      exact ⟨rfl, hlen⟩

/-- Witness for `c6_excerpt_length`. -/
theorem c6_excerpt_length_witness :
    (1 : Int) ≤ 160 ∧
    ((createExcerpt 160 "hello *world*".data).length : Int) ≤ 160 :=
  ⟨by decide, (c6_excerpt_length "hello *world*".data 160 (by decide)).1⟩

/-- A body that is pure text, longer than 160 characters, ending in a run of
ellipsis characters. -/
def c6text : Str := List.replicate 150 'a' ++ List.replicate 20 '…'

set_option maxRecDepth 100000 in
/-- Claim C6 as stated is refuted: at the configured maximum `0` the length bound
fails (Python's `[:-1]` slice), and at the default maximum 160 a truncated
excerpt of `c6text` ends in *two* ellipsis characters, so "ends in exactly
one ellipsis" is false as stated. -/
theorem c6_counterexample :
    ¬ ((createExcerpt 0 "ab".data).length ≤ 0) ∧
    (collapseWs (stripMarkup (replaceLinksEx (removeFenced c6text)))).length > 160 ∧
    (createExcerpt 160 c6text).length = 160 ∧
    (createExcerpt 160 c6text).drop 158 = ['…', '…'] := by
  refine ⟨by decide, by decide, by decide, by decide⟩

/-- Two distinct file names that normalize to the same slug `.md`:
`PurePath(".md").suffix` is empty (a dot-file has no extension), so
stripping leaves `.md`; stripping `.md.md`'s suffix also leaves `.md`. -/
def c2files : List (List Str × Str) :=
  [([".md".data], "first".data), ([".md.md".data], "second".data)]

/-- Claim C2: the two files of `c2files` normalize to the same slug, yet
loading succeeds (there is no `DuplicateSlugError` anywhere in the code)
and the dict holds a single note carrying the second file's content and
source path — the first note's data was silently dropped by the key
collision, contradicting the claim. -/
theorem c2_duplicate_slug_overwrites :
    slugOfFile [".md".data] = ".md".data ∧
    slugOfFile [".md.md".data] = ".md".data ∧
    (loadNotes kbRoot c2files).map
        (fun d => d.map (fun e => (e.1, e.2.content, e.2.sourcePath))) =
      .ok [(".md".data, "second".data, ["kb".data, ".md.md".data])] := by
  refine ⟨by decide, by decide, by decide⟩

/-- A body whose only link target is `.`. -/
def c4body : Str := "[x](.)".data

/-- Claim C4: the extension-less link target `.` does not get `.md` appended
and silently resolved or skipped — `Path(".").with_suffix(".md")` raises an
uncaught `ValueError` (the path has an empty name), aborting the build. -/
theorem c4_dot_target_value_error :
    findLinkTargets c4body = [".".data] ∧
    pySuffix (pathName (parsePath ".".data).comps) = [] ∧
    extractOutgoingSlugs c4body kbRoot kbRoot = .error .valueError ∧
    loadNotes kbRoot [(["a.md".data], c4body)] = .error .valueError := by
  refine ⟨by decide, by decide, by decide, by decide⟩

/-- The corpus root directory named `notes`, so that the claim's
`notes/a.md` is the file `a.md` at the corpus root. -/
def c5root : List Str := ["notes".data]

/-- A corpus where `notes/sub/page.md` does not exist. -/
def c5missing : List (List Str × Str) :=
  [(["a.md".data], "[x](sub/page.md)".data)]

/-- The same corpus with `notes/sub/page.md` present. -/
def c5both : List (List Str × Str) :=
  c5missing ++ [(["sub".data, "page.md".data], "page content".data)]

/-- The loaded notes of the corpus with the missing target. -/
def c5notesMissing : List (Str × Note) :=
  (buildNotes c5root c5missing).toOption.getD []

/-- Claim C5 as stated is refuted: with `notes/sub/page.md` absent, the corpus
loads without error and the resolved slug `sub/page` is *in* `a`'s outgoing
set — it is not "excluded from the outgoing set" as the claim states. -/
theorem c5_counterexample :
    buildNotes c5root c5missing = .ok c5notesMissing ∧
    c5notesMissing.map Prod.fst = ["a".data] ∧
    "sub/page".data ∈ ((c5notesMissing.map Prod.snd).getD 0 default).outgoingSlugs := by
  refine ⟨by decide, by decide, by decide⟩

/-- Claim C5 (amended): the link `[x](sub/page.md)` in `notes/a.md` resolves
to the slug `sub/page` and enters `a`'s outgoing set whether or not the
file exists; when `notes/sub/page.md` exists it receives the backlink from
`a`, and when it does not exist the slug is simply dangling — no backlink
anywhere and no error. -/
theorem c5_roundtrip :
    (buildNotes c5root c5both).map (fun d => d.map (fun e =>
        (e.1, e.2.outgoingSlugs, e.2.backlinks.map NoteRef.slug))) =
      .ok [("a".data, ["sub/page".data], []),
           ("sub/page".data, [], ["a".data])] ∧
    (buildNotes c5root c5missing).map (fun d => d.map (fun e =>
        (e.1, e.2.outgoingSlugs, e.2.backlinks.map NoteRef.slug))) =
      .ok [("a".data, ["sub/page".data], [])] := by
  refine ⟨by decide, by decide⟩

/-- Claim C3: tag path assignment is collision-free — over any duplicate-free
set of tag strings (Python `dict` keys), distinct tags receive distinct
output paths.  The procedure is the embedded `_build_tag_paths`: tags in
case-insensitive lexicographic order of the raw string, collisions resolved
by appending `-2`, `-3`, … until unused. -/
theorem c3_tag_paths_collision_free (tags : List Str) (htags : tags.Nodup)
    (t₁ t₂ p₁ p₂ : Str)
    (h₁ : (t₁, p₁) ∈ buildTagPaths tags) (h₂ : (t₂, p₂) ∈ buildTagPaths tags)
    (hne : t₁ ≠ t₂) : p₁ ≠ p₂ := by
  intro hp
  subst hp
  exact hne (nodup_snds_entry_unique (buildTagPaths_inv tags htags).2 h₁ h₂)

/-- Witness for `c3_tag_paths_collision_free`: the spec's own scenario of
the case-distinct tags `Project` and `project`. -/
theorem c3_tag_paths_collision_free_witness :
    (["Project".data, "project".data] : List Str).Nodup ∧
    ("Project".data, "tags/project.html".data) ∈
      buildTagPaths ["Project".data, "project".data] ∧
    ("project".data, "tags/project-2.html".data) ∈
      buildTagPaths ["Project".data, "project".data] ∧
    "tags/project.html".data ≠ "tags/project-2.html".data :=
  ⟨by decide, by decide, by decide,
    c3_tag_paths_collision_free ["Project".data, "project".data] (by decide)
      "Project".data "project".data "tags/project.html".data
      "tags/project-2.html".data (by decide) (by decide) (by decide)⟩

/-- Claim C1: after the backlink phase, for all loaded notes `A` and `B`, `B`'s
backlinks contain the reference carrying `A`'s slug, title and output path
(i.e. `mkRef A`) if and only if `A`'s outgoing slugs contain `B`'s slug. -/
theorem c1_backlink_iff_outgoing (root : List Str)
    (files : List (List Str × Str)) (notes : List (Str × Note))
    (hbuild : buildNotes root files = .ok notes)
    (A B : Note) (hA : A ∈ notes.map Prod.snd) (hB : B ∈ notes.map Prod.snd) :
    mkRef A ∈ B.backlinks ↔ B.slug ∈ A.outgoingSlugs := by
  rw [buildNotes] at hbuild
  cases hld : loadNotes root files with
  | error e => rw [hld] at hbuild; cases hbuild
  | ok loaded =>
    rw [hld] at hbuild
    simp only [Except.map] at hbuild
    have hnotes : notes = attachBacklinks loaded := (Except.ok.inj hbuild).symm
    subst hnotes
    have hwf := loadNotes_wf hld
    rw [attachBacklinks] at hA hB
    obtain ⟨knA, hknA, hAeq⟩ := mem_attach_vals.mp hA
    obtain ⟨knB, hknB, hBeq⟩ := mem_attach_vals.mp hB
    subst hAeq
    subst hBeq
    have hBslug : knB.2.slug = knB.1 := hwf.2 _ hknB
    constructor
    · intro hmem
      have hmem' : mkRef knA.2 ∈
          blSpec (fun n => n.outgoingSlugs) (loaded.map Prod.snd) knB.1 :=
        ((sortByKey_perm (fun r => pyLower r.title) _).mem_iff).mp hmem
      obtain ⟨A', hA'mem, hk, heq⟩ := (blSpec_mem _ _ _ _).mp hmem'
      have hslug : knA.2.slug = A'.slug := congrArg NoteRef.slug heq
      have hAA' : knA.2 = A' :=
        wf_vals_slug_inj hwf (List.mem_map.mpr ⟨knA, hknA, rfl⟩) hA'mem hslug
      show knB.2.slug ∈ knA.2.outgoingSlugs
      rw [hBslug, hAA']
      exact hk
    · intro hmem
      have step1 : mkRef knA.2 ∈
          blSpec (fun n => n.outgoingSlugs) (loaded.map Prod.snd) knB.1 := by
        apply (blSpec_mem _ _ _ _).mpr
        refine ⟨knA.2, List.mem_map.mpr ⟨knA, hknA, rfl⟩, ?_, rfl⟩
        show knB.1 ∈ knA.2.outgoingSlugs
        rw [← hBslug]
        exact hmem
      exact ((sortByKey_perm (fun r => pyLower r.title)
        (blSpec (fun n => n.outgoingSlugs) (loaded.map Prod.snd) knB.1)).mem_iff).mpr step1

/-- The spec's §8 scenario corpus: `a.md` links to `b.md`. -/
def c1files : List (List Str × Str) :=
  [(["a.md".data], "---\ntitle: Alpha\n---\n[see b](b.md)".data),
   (["b.md".data], "# Beta\nhello".data)]

/-- The finished note dict of `c1files`. -/
def c1notes : List (Str × Note) := (buildNotes kbRoot c1files).toOption.getD []

/-- The finished `a` note. -/
def c1noteA : Note := (c1notes.map Prod.snd).getD 0 default

/-- The finished `b` note. -/
def c1noteB : Note := (c1notes.map Prod.snd).getD 1 default

/-- Witness for `c1_backlink_iff_outgoing`. -/
theorem c1_backlink_iff_outgoing_witness :
    buildNotes kbRoot c1files = .ok c1notes ∧
    c1noteA ∈ c1notes.map Prod.snd ∧ c1noteB ∈ c1notes.map Prod.snd ∧
    (mkRef c1noteA ∈ c1noteB.backlinks ↔ c1noteB.slug ∈ c1noteA.outgoingSlugs) :=
  ⟨by decide, by decide, by decide,
    c1_backlink_iff_outgoing kbRoot c1files c1notes (by decide)
      c1noteA c1noteB (by decide) (by decide)⟩

/-- The backlink list stored under `k` before the final sort — the
insertion order the second loop of `_attach_backlinks` produces
(`attachRawWith_eq`). -/
def rawBacklinksAt (d : List (Str × Note)) (k : Str) : List NoteRef :=
  blSpec (fun n => n.outgoingSlugs) (d.map Prod.snd) k

/-- Claim C8: after the final step of the backlink phase, every note's
backlink list is sorted by the referring title compared case-insensitively
(lower-cased, lexicographically), and references whose lowered titles are
equal appear in their original insertion order (the per-key filter of the
sorted list equals that of the raw, insertion-ordered list). -/
theorem c8_backlinks_sorted_stable (d : List (Str × Note)) (k : Str)
    (B : Note) (hB : (k, B) ∈ attachBacklinks d) :
    B.backlinks.Pairwise
      (fun r₁ r₂ => leChars (pyLower r₁.title) (pyLower r₂.title) = true) ∧
    ∀ t : Str, B.backlinks.filter (fun r => pyLower r.title = t) =
      (rawBacklinksAt d k).filter (fun r => pyLower r.title = t) := by
  rw [attachBacklinks, attachBacklinksWith_eq, List.mem_map] at hB
  obtain ⟨kn, hkn, heq⟩ := hB
  rw [Prod.mk.injEq] at heq
  obtain ⟨hk, hBeq⟩ := heq
  subst hk
  subst hBeq
  constructor
  · exact sortByKey_sorted (fun r : NoteRef => pyLower r.title) _
  · intro t
    exact sortByKey_filter (fun r : NoteRef => pyLower r.title) t _

/-- A corpus with a case-insensitive title tie: both `a.md` (title `NOTE`)
and `b.md` (title `note`) link to `t.md`. -/
def c8files : List (List Str × Str) :=
  [(["a.md".data], "---\ntitle: NOTE\n---\n[t](t.md)".data),
   (["b.md".data], "---\ntitle: note\n---\n[t](t.md)".data),
   (["t.md".data], "target".data)]

/-- The loaded (pre-backlink) dict of `c8files`. -/
def c8d : List (Str × Note) := (loadNotes kbRoot c8files).toOption.getD []

/-- The finished `t` note of `c8files`. -/
def c8B : Note := ((attachBacklinks c8d).map Prod.snd).getD 2 default

/-- Witness for `c8_backlinks_sorted_stable`, instantiated at the tied
lower-cased title `note`. -/
theorem c8_backlinks_sorted_stable_witness :
    ("t".data, c8B) ∈ attachBacklinks c8d ∧
    c8B.backlinks.Pairwise
      (fun r₁ r₂ => leChars (pyLower r₁.title) (pyLower r₂.title) = true) ∧
    c8B.backlinks.filter (fun r => pyLower r.title = "note".data) =
      (rawBacklinksAt c8d "t".data).filter (fun r => pyLower r.title = "note".data) :=
  ⟨by decide,
    (c8_backlinks_sorted_stable c8d "t".data c8B (by decide)).1,
    (c8_backlinks_sorted_stable c8d "t".data c8B (by decide)).2 "note".data⟩

/-- Claim C9: determinism across runs.  Slug derivation is the pure function
`slugOfFile` of the relative path, and the only run-to-run varying input of
the pipeline is the iteration order of the Python `set` of outgoing slugs
(string hashes are salted per process); for any two enumeration orders of
those sets, the pipeline produces identical note mappings, identical tag
groupings and identical tag-to-path assignments. -/
theorem c9_run_determinism (root : List Str) (files : List (List Str × Str))
    (e₁ e₂ : Note → List Str)
    (h₁ : ∀ n, List.Perm (e₁ n) n.outgoingSlugs)
    (h₂ : ∀ n, List.Perm (e₂ n) n.outgoingSlugs) :
    siteDataWith e₁ root files = siteDataWith e₂ root files := by
  rw [siteDataWith, siteDataWith]
  cases hld : loadNotes root files with
  | error e => rfl
  | ok loaded =>
    have hperm : ∀ n, List.Perm (e₁ n) (e₂ n) :=
      fun n => (h₁ n).trans (h₂ n).symm
    have hatt : attachBacklinksWith e₁ loaded = attachBacklinksWith e₂ loaded := by
      rw [attachBacklinksWith_eq, attachBacklinksWith_eq]
      apply List.map_congr_left
      intro kn _
      rw [blSpec_congr hperm]
    dsimp only
    rw [hatt]

/-- A corpus whose `a.md` has two outgoing slugs, so the two enumeration
orders in the witness genuinely differ. -/
def c9files : List (List Str × Str) :=
  [(["a.md".data], "[b](b.md) [c](c.md)".data),
   (["b.md".data], "b".data), (["c.md".data], "c".data)]

/-- Witness for `c9_run_determinism`: the canonical set order against the
reversed one. -/
theorem c9_run_determinism_witness :
    siteDataWith (fun n => n.outgoingSlugs) kbRoot c9files =
      siteDataWith (fun n => n.outgoingSlugs.reverse) kbRoot c9files :=
  c9_run_determinism kbRoot c9files _ _
    (fun n => List.Perm.refl _) (fun n => List.reverse_perm _)

end Kbgen
